import Mathlib

/-!
Verification of the prime-factorization core of `src/App.tsx`.

The embedding follows the source file: `primeFactorize` (lines 6-34),
`groupFactors` (lines 37-57), the formatting and history-append code of
`handleFactorize` (lines 86-124), `removeFromHistory` (lines 127-129) and
`recalculate` (lines 132-139).  JavaScript numbers that the program keeps
in the exact-integer range are modelled as `Int` (inputs, which may be
negative) and `Nat` (the always-nonnegative working values); `Math.sqrt`
on these exact integers is modelled by `Nat.sqrt`, whose ordering against
an integer `i` agrees with the real square root: `i ≤ √n ↔ i ≤ Nat.sqrt n`.
-/

/-- `Number.MAX_SAFE_INTEGER`, i.e. `2^53 - 1`. -/
def MAX_SAFE_INTEGER : Int := 2 ^ 53 - 1

/-- The inner `while (n % p === 0) { factors.push(p); n = n / p; }` loop of
`primeFactorize` (source lines 15-18 for `p = 2` and 22-25 for `p = i`):
returns the pushed factors and the final value of `n`.  The conditions
`1 < p` and `0 < n` hold at every call site of the source program and make
the loop terminate. -/
def divideOut (p n : Nat) : List Nat × Nat :=
  if h : n % p = 0 ∧ 1 < p ∧ 0 < n then
    (p :: (divideOut p (n / p)).1, (divideOut p (n / p)).2)
  else
    ([], n)
termination_by n
decreasing_by exact Nat.div_lt_self h.2.2 h.2.1

theorem divideOut_eq_pos {p n : Nat} (h : n % p = 0 ∧ 1 < p ∧ 0 < n) :
    divideOut p n = (p :: (divideOut p (n / p)).1, (divideOut p (n / p)).2) := by
  rw [divideOut]
  exact dif_pos h

theorem divideOut_eq_neg {p n : Nat} (h : ¬(n % p = 0 ∧ 1 < p ∧ 0 < n)) :
    divideOut p n = ([], n) := by
  rw [divideOut]
  exact dif_neg h

theorem divideOut_snd_le (p n : Nat) : (divideOut p n).2 ≤ n := by
  refine divideOut.induct p (fun m => (divideOut p m).2 ≤ m) ?_ ?_ n
  · intro m h ih
    rw [divideOut_eq_pos h]
    exact le_trans ih (Nat.div_le_self m p)
  · intro m h
    rw [divideOut_eq_neg h]

theorem divideOut_prod (p n : Nat) :
    (divideOut p n).1.prod * (divideOut p n).2 = n := by
  refine divideOut.induct p (fun m => (divideOut p m).1.prod * (divideOut p m).2 = m) ?_ ?_ n
  · intro m h ih
    rw [divideOut_eq_pos h]
    simp only [List.prod_cons]
    rw [mul_assoc, ih]
    exact Nat.mul_div_cancel' (Nat.dvd_of_mod_eq_zero h.1)
  · intro m h
    rw [divideOut_eq_neg h]
    simp

theorem divideOut_mem (p n : Nat) : ∀ x ∈ (divideOut p n).1, x = p := by
  refine divideOut.induct p (fun m => ∀ x ∈ (divideOut p m).1, x = p) ?_ ?_ n
  · intro m h ih
    rw [divideOut_eq_pos h]
    intro x hx
    rcases List.mem_cons.mp hx with h1 | h2
    · exact h1
    · exact ih x h2
  · intro m h
    rw [divideOut_eq_neg h]
    intro x hx
    simp at hx

theorem divideOut_ne_nil (p n : Nat) (h : (divideOut p n).1 ≠ []) : p ∣ n := by
  by_cases hc : n % p = 0 ∧ 1 < p ∧ 0 < n
  · exact Nat.dvd_of_mod_eq_zero hc.1
  · rw [divideOut_eq_neg hc] at h
    exact absurd rfl h

theorem divideOut_snd_spec (p n : Nat) (hp : 1 < p) (hn : 0 < n) :
    0 < (divideOut p n).2 ∧ ¬ p ∣ (divideOut p n).2 := by
  refine divideOut.induct p
    (fun m => 0 < m → 0 < (divideOut p m).2 ∧ ¬ p ∣ (divideOut p m).2) ?_ ?_ n hn
  · intro m h ih _
    rw [divideOut_eq_pos h]
    refine ih ?_
    exact Nat.div_pos (Nat.le_of_dvd h.2.2 (Nat.dvd_of_mod_eq_zero h.1)) (by omega)
  · intro m h hm
    rw [divideOut_eq_neg h]
    refine ⟨hm, fun hdvd => ?_⟩
    obtain ⟨c, rfl⟩ := hdvd
    exact h ⟨Nat.mul_mod_right p c, hp, hm⟩

/-- A list all of whose entries are equal is sorted. -/
theorem sorted_of_all_eq (l : List Nat) (p : Nat) (h : ∀ x ∈ l, x = p) :
    l.Sorted (· ≤ ·) := by
  induction l with
  | nil => simp
  | cons a t ih =>
    rw [List.sorted_cons]
    constructor
    · intro b hb
      rw [h a (List.mem_cons_self a t), h b (List.mem_cons_of_mem a hb)]
    · exact ih (fun x hx => h x (List.mem_cons_of_mem a hx))

/-- The `for (let i = 3; i <= Math.sqrt(n); i += 2)` loop of `primeFactorize`
(source lines 21-26) followed by the final `if (n > 1) factors.push(n)`
(lines 29-31).  The loop bound `i <= Math.sqrt(n)` is re-evaluated on the
current value of `n`, exactly as in the source. -/
def oddLoop (i n : Nat) : List Nat :=
  if h : i ≤ Nat.sqrt n then
    (divideOut i n).1 ++ oddLoop (i + 2) (divideOut i n).2
  else if 1 < n then [n] else []
termination_by Nat.sqrt n + 2 - i
decreasing_by
  have h1 : (divideOut i n).2 ≤ n := divideOut_snd_le i n
  have h2 : Nat.sqrt (divideOut i n).2 ≤ Nat.sqrt n := Nat.sqrt_le_sqrt h1
  omega

theorem oddLoop_eq_pos {i n : Nat} (h : i ≤ Nat.sqrt n) :
    oddLoop i n = (divideOut i n).1 ++ oddLoop (i + 2) (divideOut i n).2 := by
  rw [oddLoop]
  exact dif_pos h

theorem oddLoop_eq_neg {i n : Nat} (h : ¬ i ≤ Nat.sqrt n) :
    oddLoop i n = if 1 < n then [n] else [] := by
  rw [oddLoop]
  exact dif_neg h

/-- Evaluation rule for `Nat.sqrt` at concrete arguments. -/
theorem sqrt_eval {n k : Nat} (h1 : k * k ≤ n) (h2 : n < (k + 1) * (k + 1)) :
    Nat.sqrt n = k := by
  have a := Nat.le_sqrt.mpr h1
  have b := Nat.sqrt_lt.mpr h2
  omega

theorem sorted_append_of (l1 l2 : List Nat) (h1 : l1.Sorted (· ≤ ·))
    (h2 : l2.Sorted (· ≤ ·)) (h : ∀ a ∈ l1, ∀ b ∈ l2, a ≤ b) :
    (l1 ++ l2).Sorted (· ≤ ·) :=
  List.pairwise_append.mpr ⟨h1, h2, h⟩

/-- Main invariant of the odd trial-division loop: if `n` is positive and has
no divisor `k` with `2 ≤ k < i`, and `i` is an odd number at least `3`, then
the loop output multiplies to `n`, consists of primes at least `i`, and is
sorted. -/
theorem oddLoop_main : ∀ i n : Nat, 3 ≤ i → i % 2 = 1 → 0 < n →
    (∀ k, 2 ≤ k → k < i → ¬ k ∣ n) →
    (oddLoop i n).prod = n ∧ (∀ p ∈ oddLoop i n, Nat.Prime p ∧ i ≤ p) ∧
      (oddLoop i n).Sorted (· ≤ ·) := by
  refine oddLoop.induct
    (fun i n => 3 ≤ i → i % 2 = 1 → 0 < n → (∀ k, 2 ≤ k → k < i → ¬ k ∣ n) →
      (oddLoop i n).prod = n ∧ (∀ p ∈ oddLoop i n, Nat.Prime p ∧ i ≤ p) ∧
        (oddLoop i n).Sorted (· ≤ ·)) ?_ ?_ ?_
  · -- loop iteration: i ≤ Math.sqrt(n)
    intro i n hle ih hi3 hodd hn hinv
    rw [oddLoop_eq_pos hle]
    have hprod := divideOut_prod i n
    have hm_dvd : (divideOut i n).2 ∣ n := dvd_of_mul_left_eq _ hprod
    have hspec := divideOut_snd_spec i n (by omega) hn
    have hinv' : ∀ k, 2 ≤ k → k < i + 2 → ¬ k ∣ (divideOut i n).2 := by
      intro k hk2 hki hkm
      rcases Nat.lt_or_ge k i with hlt | hge
      · exact hinv k hk2 hlt (hkm.trans hm_dvd)
      · rcases (by omega : k = i ∨ k = i + 1) with rfl | rfl
        · exact hspec.2 hkm
        · have h2 : (2 : Nat) ∣ i + 1 := by omega
          exact hinv 2 (by omega) (by omega) ((h2.trans hkm).trans hm_dvd)
    have ihm := ih (by omega) (by omega) hspec.1 hinv'
    have hfst : ∀ x ∈ (divideOut i n).1, x = i := divideOut_mem i n
    have hiprime : (divideOut i n).1 ≠ [] → Nat.Prime i := by
      intro hne
      have hidvd : i ∣ n := divideOut_ne_nil i n hne
      rw [Nat.prime_def_lt]
      refine ⟨by omega, ?_⟩
      intro c hc hcd
      by_contra hne1
      have hc0 : c ≠ 0 := by
        rintro rfl
        have := Nat.eq_zero_of_zero_dvd hcd
        omega
      exact hinv c (by omega) hc (hcd.trans hidvd)
    refine ⟨?_, ?_, ?_⟩
    · rw [List.prod_append, ihm.1, hprod]
    · intro p hp
      rcases List.mem_append.mp hp with hmem | hmem
      · have hpi := hfst p hmem
        subst hpi
        exact ⟨hiprime (List.ne_nil_of_mem hmem), le_refl p⟩
      · have := ihm.2.1 p hmem
        exact ⟨this.1, by omega⟩
    · refine sorted_append_of _ _ (sorted_of_all_eq _ i hfst) ihm.2.2 ?_
      intro a ha b hb
      have h1 := hfst a ha
      have h2 := (ihm.2.1 b hb).2
      omega
  · -- loop exit with n > 1: the remaining value is prime
    intro i n hgt h1n hi3 hodd hn hinv
    rw [oddLoop_eq_neg hgt, if_pos h1n]
    have hni : n < i * i := Nat.sqrt_lt.mp (by omega)
    have hprime : Nat.Prime n := by
      rw [Nat.prime_def_lt]
      refine ⟨by omega, ?_⟩
      intro c hc hcd
      by_contra hne1
      have hc0 : c ≠ 0 := by
        rintro rfl
        have := Nat.eq_zero_of_zero_dvd hcd
        omega
      have hc2 : 2 ≤ c := by omega
      obtain ⟨k, hk⟩ := hcd
      rcases Nat.lt_or_ge c i with hlt | hge
      · exact hinv c hc2 hlt ⟨k, hk⟩
      · have hle2 : i * k ≤ n := by
          calc i * k ≤ c * k := Nat.mul_le_mul_right _ hge
            _ = n := hk.symm
        have hklt : k < i := Nat.lt_of_mul_lt_mul_left (lt_of_le_of_lt hle2 hni)
        have hk0 : k ≠ 0 := by
          rintro rfl
          rw [mul_zero] at hk
          omega
        have hk1 : k ≠ 1 := by
          rintro rfl
          rw [mul_one] at hk
          omega
        exact hinv k (by omega) hklt ⟨c, by rw [hk, Nat.mul_comm]⟩
    have hin : i ≤ n := by
      by_contra hlt
      push_neg at hlt
      exact hinv n (by omega) hlt dvd_rfl
    refine ⟨by simp, ?_, List.sorted_singleton n⟩
    intro p hp
    rw [List.mem_singleton] at hp
    subst hp
    exact ⟨hprime, hin⟩
  · -- loop exit with n = 1: nothing left
    intro i n hgt h1n hi3 hodd hn hinv
    rw [oddLoop_eq_neg hgt, if_neg h1n]
    have hn1 : n = 1 := by omega
    exact ⟨by simp [hn1], by simp, by simp⟩

/-- `primeFactorize` (source lines 6-34): validation of the input (lines
8-9), the factor-2 loop, the odd trial-division loop and the final push of
the remaining value. -/
def primeFactorize (num : Int) : List Nat :=
  if num < 2 then []
  else if num > MAX_SAFE_INTEGER then []
  else (divideOut 2 num.toNat).1 ++ oddLoop 3 (divideOut 2 num.toNat).2

/-- Full correctness of `primeFactorize` on the valid domain: the output
multiplies to the input, consists of primes, and is sorted ascending. -/
theorem primeFactorize_core (num : Int) (h2 : 2 ≤ num) (hle : num ≤ MAX_SAFE_INTEGER) :
    (primeFactorize num).prod = num.toNat ∧
    (∀ p ∈ primeFactorize num, Nat.Prime p) ∧
    (primeFactorize num).Sorted (· ≤ ·) := by
  have hlt : ¬ num < 2 := by omega
  have hgt : ¬ num > MAX_SAFE_INTEGER := by omega
  rw [primeFactorize, if_neg hlt, if_neg hgt]
  have hn2 : 2 ≤ num.toNat := by omega
  have hprod := divideOut_prod 2 num.toNat
  have hspec := divideOut_snd_spec 2 num.toNat (by norm_num) (by omega)
  have hmem2 := divideOut_mem 2 num.toNat
  have hinv : ∀ k, 2 ≤ k → k < 3 → ¬ k ∣ (divideOut 2 num.toNat).2 := by
    intro k hk2 hk3 hkd
    have hk : k = 2 := by omega
    subst hk
    exact hspec.2 hkd
  have hmain := oddLoop_main 3 (divideOut 2 num.toNat).2 (le_refl 3) (by norm_num)
    hspec.1 hinv
  refine ⟨?_, ?_, ?_⟩
  · rw [List.prod_append, hmain.1, hprod]
  · intro p hp
    rcases List.mem_append.mp hp with hmem | hmem
    · rw [hmem2 p hmem]
      exact Nat.prime_two
    · exact (hmain.2.1 p hmem).1
  · refine sorted_append_of _ _ (sorted_of_all_eq _ 2 hmem2) hmain.2.2 ?_
    intro a ha b hb
    have h1 := hmem2 a ha
    have h2 := (hmain.2.1 b hb).2
    omega

/-- Modelled from the spec: the spec's statement of the odd trial-division
loop, with the loop bound written `d * d ≤ n` (the spec's `d*d ≤ remaining
value`) instead of the code's `i <= Math.sqrt(n)`.  Everything else follows
the spec's words: divide out each occurrence of `d` before advancing `d` by
2, and finally append the remaining value once if it exceeds 1. -/
def specOddLoop (d n : Nat) : List Nat :=
  if h : d * d ≤ n then
    (divideOut d n).1 ++ specOddLoop (d + 2) (divideOut d n).2
  else if 1 < n then [n] else []
termination_by Nat.sqrt n + 2 - d
decreasing_by
  have h1 : (divideOut d n).2 ≤ n := divideOut_snd_le d n
  have h2 : Nat.sqrt (divideOut d n).2 ≤ Nat.sqrt n := Nat.sqrt_le_sqrt h1
  have h3 : d ≤ Nat.sqrt n := Nat.le_sqrt.mpr h
  omega

theorem specOddLoop_eq_pos {d n : Nat} (h : d * d ≤ n) :
    specOddLoop d n = (divideOut d n).1 ++ specOddLoop (d + 2) (divideOut d n).2 := by
  rw [specOddLoop]
  exact dif_pos h

theorem specOddLoop_eq_neg {d n : Nat} (h : ¬ d * d ≤ n) :
    specOddLoop d n = if 1 < n then [n] else [] := by
  rw [specOddLoop]
  exact dif_neg h

/-- Modelled from the spec: the whole spec algorithm — divide out 2 while
divisible, run the odd trial-division loop with the `d*d ≤ n` bound, and
append the remaining value if it exceeds 1 — with the same validity guards
as the code. -/
def specFactorize (num : Int) : List Nat :=
  if num < 2 then []
  else if num > MAX_SAFE_INTEGER then []
  else (divideOut 2 num.toNat).1 ++ specOddLoop 3 (divideOut 2 num.toNat).2

theorem oddLoop_eq_specOddLoop (i n : Nat) : oddLoop i n = specOddLoop i n := by
  refine oddLoop.induct (fun i n => oddLoop i n = specOddLoop i n) ?_ ?_ ?_ i n
  · intro i n h ih
    rw [oddLoop_eq_pos h, specOddLoop_eq_pos (Nat.le_sqrt.mp h), ih]
  · intro i n h h1n
    rw [oddLoop_eq_neg h, specOddLoop_eq_neg (fun hc => h (Nat.le_sqrt.mpr hc))]
  · intro i n h h1n
    rw [oddLoop_eq_neg h, specOddLoop_eq_neg (fun hc => h (Nat.le_sqrt.mpr hc))]

theorem sqrt_three : Nat.sqrt 3 = 1 := sqrt_eval (by norm_num) (by norm_num)

theorem primeFactorize_twelve : primeFactorize 12 = [2, 2, 3] := by
  rw [primeFactorize, if_neg (by norm_num), if_neg (by norm_num [MAX_SAFE_INTEGER])]
  rw [show (12 : Int).toNat = 12 from rfl]
  norm_num [divideOut_eq_pos, divideOut_eq_neg, oddLoop_eq_neg, sqrt_three]

/-- C1: for every integer `n` with `2 ≤ n ≤ MAX_SAFE_INTEGER`, the sequence
returned by `primeFactorize n` multiplies together to exactly `n`, every
element of it is a prime number, and the sequence is sorted ascending. -/
theorem primeFactorize_prod_prime_sorted (num : Int) (h2 : 2 ≤ num)
    (hle : num ≤ MAX_SAFE_INTEGER) :
    ((primeFactorize num).prod : Int) = num ∧
    (∀ p ∈ primeFactorize num, Nat.Prime p) ∧
    (primeFactorize num).Sorted (· ≤ ·) := by
  obtain ⟨h1, hp, hs⟩ := primeFactorize_core num h2 hle
  refine ⟨?_, hp, hs⟩
  rw [h1]
  omega

theorem primeFactorize_prod_prime_sorted_witness :
    (2 ≤ (12 : Int) ∧ (12 : Int) ≤ MAX_SAFE_INTEGER) ∧
    (((primeFactorize 12).prod : Int) = 12 ∧
      (∀ p ∈ primeFactorize 12, Nat.Prime p) ∧
      (primeFactorize 12).Sorted (· ≤ ·)) :=
  ⟨⟨by norm_num, by norm_num [MAX_SAFE_INTEGER]⟩,
    primeFactorize_prod_prime_sorted 12 (by norm_num) (by norm_num [MAX_SAFE_INTEGER])⟩

/-- C2: for every integer `n` with `n < 2` and every `n` above
`MAX_SAFE_INTEGER`, `primeFactorize n` returns the empty sequence; the
embedding is a total function, so no exception can be raised, and the empty
result is the only failure signal for both invalid-input cases. -/
theorem primeFactorize_invalid_empty (num : Int)
    (h : num < 2 ∨ MAX_SAFE_INTEGER < num) : primeFactorize num = [] := by
  have hmsi : (1 : Int) < MAX_SAFE_INTEGER := by norm_num [MAX_SAFE_INTEGER]
  rw [primeFactorize]
  rcases h with h | h
  · rw [if_pos h]
  · rw [if_neg (by omega), if_pos (by omega)]

theorem primeFactorize_invalid_empty_witness :
    ((1 : Int) < 2 ∨ MAX_SAFE_INTEGER < 1) ∧ primeFactorize 1 = [] :=
  ⟨Or.inl (by norm_num), primeFactorize_invalid_empty 1 (Or.inl (by norm_num))⟩

/-- C3: over the whole valid domain, `primeFactorize` computes its result by
exactly the algorithm the spec describes (`specFactorize`, whose odd loop is
bounded by `d*d ≤ n`), and the code's loop condition `i ≤ Math.sqrt n`
(modelled exactly as `i ≤ Nat.sqrt n`) is equivalent to the spec's
condition `d*d ≤ n`. -/
theorem primeFactorize_eq_specFactorize (num : Int) (h2 : 2 ≤ num)
    (hle : num ≤ MAX_SAFE_INTEGER) :
    primeFactorize num = specFactorize num ∧
    (∀ i m : Nat, (i ≤ Nat.sqrt m) ↔ i * i ≤ m) := by
  refine ⟨?_, fun i m => Nat.le_sqrt⟩
  rw [primeFactorize, specFactorize, oddLoop_eq_specOddLoop]

theorem primeFactorize_eq_specFactorize_witness :
    (2 ≤ (12 : Int) ∧ (12 : Int) ≤ MAX_SAFE_INTEGER) ∧
    (primeFactorize 12 = specFactorize 12 ∧
      (∀ i m : Nat, (i ≤ Nat.sqrt m) ↔ i * i ≤ m)) :=
  ⟨⟨by norm_num, by norm_num [MAX_SAFE_INTEGER]⟩,
    primeFactorize_eq_specFactorize 12 (by norm_num) (by norm_num [MAX_SAFE_INTEGER])⟩

/-- C4: over the valid domain all intermediate arithmetic of
`primeFactorize` is exact: for every split `l ++ t` of the output, the
remaining value `t.prod` after emitting `l` and the emitted product
`l.prod` are divisors of the input, hence exact integers no larger than
`MAX_SAFE_INTEGER`; each inner division step reconstructs its argument
exactly (the divisor always evenly divides the current value); and the
comparison against the square-root bound decides exactly as `i*i ≤ m`. -/
theorem primeFactorize_exact_arithmetic (num : Int) (h2 : 2 ≤ num)
    (hle : num ≤ MAX_SAFE_INTEGER) :
    (∀ l t, primeFactorize num = l ++ t →
      l.prod * t.prod = num.toNat ∧ t.prod ∣ num.toNat ∧ l.prod ∣ num.toNat ∧
        (t.prod : Int) ≤ MAX_SAFE_INTEGER ∧ (l.prod : Int) ≤ MAX_SAFE_INTEGER) ∧
    (∀ p n : Nat, (divideOut p n).1.prod * (divideOut p n).2 = n) ∧
    (∀ i m : Nat, (i ≤ Nat.sqrt m) ↔ i * i ≤ m) := by
  have hcore := primeFactorize_core num h2 hle
  refine ⟨?_, divideOut_prod, fun i m => Nat.le_sqrt⟩
  intro l t heq
  have hprod : l.prod * t.prod = num.toNat := by
    rw [← List.prod_append, ← heq, hcore.1]
  have htd : t.prod ∣ num.toNat := dvd_of_mul_left_eq _ hprod
  have hld : l.prod ∣ num.toNat := Dvd.intro _ hprod
  have hpos : 0 < num.toNat := by omega
  have ht_le : t.prod ≤ num.toNat := Nat.le_of_dvd hpos htd
  have hl_le : l.prod ≤ num.toNat := Nat.le_of_dvd hpos hld
  refine ⟨hprod, htd, hld, ?_, ?_⟩
  · have := Int.ofNat_le.mpr ht_le
    omega
  · have := Int.ofNat_le.mpr hl_le
    omega

theorem primeFactorize_exact_arithmetic_witness :
    (2 ≤ (12 : Int) ∧ (12 : Int) ≤ MAX_SAFE_INTEGER) ∧
    ((∀ l t, primeFactorize 12 = l ++ t →
      l.prod * t.prod = (12 : Int).toNat ∧ t.prod ∣ (12 : Int).toNat ∧
        l.prod ∣ (12 : Int).toNat ∧
        (t.prod : Int) ≤ MAX_SAFE_INTEGER ∧ (l.prod : Int) ≤ MAX_SAFE_INTEGER) ∧
    (∀ p n : Nat, (divideOut p n).1.prod * (divideOut p n).2 = n) ∧
    (∀ i m : Nat, (i ≤ Nat.sqrt m) ↔ i * i ≤ m)) :=
  ⟨⟨by norm_num, by norm_num [MAX_SAFE_INTEGER]⟩,
    primeFactorize_exact_arithmetic 12 (by norm_num) (by norm_num [MAX_SAFE_INTEGER])⟩

/-- The `{ prime, exponent }` pairs produced by `groupFactors` (source
lines 37-57). -/
structure GroupedFactor where
  prime : Nat
  exponent : Nat
deriving DecidableEq

/-- The `for (let i = 1; i < factors.length; i++)` loop of `groupFactors`
(source lines 44-52) together with the final push (line 54): `cur` and `e`
are the running `currentPrime` and `exponent`, and the argument list is the
part of `factors` not yet visited. -/
def groupLoop (cur e : Nat) : List Nat → List GroupedFactor
  | [] => [⟨cur, e⟩]
  | x :: xs =>
    if x = cur then groupLoop cur (e + 1) xs
    else ⟨cur, e⟩ :: groupLoop x 1 xs

/-- `groupFactors` (source lines 37-57): empty input yields empty output,
otherwise the run-length grouping loop starts at `factors[0]` with
exponent 1. -/
def groupFactors : List Nat → List GroupedFactor
  | [] => []
  | x :: xs => groupLoop x 1 xs

/-- Expansion of a grouped sequence: each prime repeated `exponent` times,
concatenated in group order. -/
def expandGroups : List GroupedFactor → List Nat
  | [] => []
  | g :: gs => List.replicate g.exponent g.prime ++ expandGroups gs

theorem groupLoop_expand (l : List Nat) : ∀ cur e,
    expandGroups (groupLoop cur e l) = List.replicate e cur ++ l := by
  induction l with
  | nil =>
    intro cur e
    simp [groupLoop, expandGroups]
  | cons x xs ih =>
    intro cur e
    rw [groupLoop]
    by_cases hx : x = cur
    · rw [if_pos hx, ih, hx, List.replicate_succ']
      simp
    · rw [if_neg hx, expandGroups, ih]
      simp

/-- C5: grouping then expanding is the identity: the empty list yields the
empty output, and for any input list (in particular any `primeFactorize`
output), concatenating each group's prime repeated exponent times, in
output order, reproduces the input list exactly. -/
theorem groupFactors_expand :
    groupFactors [] = [] ∧
    (∀ l : List Nat, expandGroups (groupFactors l) = l) ∧
    (∀ num : Int,
      expandGroups (groupFactors (primeFactorize num)) = primeFactorize num) := by
  have hall : ∀ l : List Nat, expandGroups (groupFactors l) = l := by
    intro l
    cases l with
    | nil => rfl
    | cons x xs =>
      rw [groupFactors, groupLoop_expand]
      simp
  exact ⟨rfl, hall, fun num => hall (primeFactorize num)⟩

theorem groupLoop_exponent_pos (l : List Nat) : ∀ cur e, 1 ≤ e →
    ∀ g ∈ groupLoop cur e l, 1 ≤ g.exponent := by
  induction l with
  | nil =>
    intro cur e he g hg
    rw [groupLoop, List.mem_singleton] at hg
    subst hg
    exact he
  | cons x xs ih =>
    intro cur e he g hg
    rw [groupLoop] at hg
    by_cases hx : x = cur
    · rw [if_pos hx] at hg
      exact ih cur (e + 1) (by omega) g hg
    · rw [if_neg hx] at hg
      rcases List.mem_cons.mp hg with h1 | h2
      · subst h1
        exact he
      · exact ih x 1 (le_refl 1) g h2

theorem groupFactors_exponent_pos (l : List Nat) :
    ∀ g ∈ groupFactors l, 1 ≤ g.exponent := by
  cases l with
  | nil =>
    intro g hg
    simp [groupFactors] at hg
  | cons x xs =>
    intro g hg
    exact groupLoop_exponent_pos xs x 1 (le_refl 1) g hg

/-- One group of the display string built in `handleFactorize` (source
lines 119-121): `exponent > 1 ? `${prime}^${exponent}` : `${prime}``. -/
def formatGroup (g : GroupedFactor) : String :=
  if g.exponent > 1 then toString g.prime ++ "^" ++ toString g.exponent
  else toString g.prime

/-- JavaScript's `Array.prototype.join(sep)`:  empty array gives `""`, and
otherwise the entries are interleaved with `sep`. -/
def joinSep (sep : String) : List String → String
  | [] => ""
  | [s] => s
  | s :: rest => s ++ sep ++ joinSep sep rest

/-- The whole `factorizationString` construction of `handleFactorize`
(source lines 119-121): map each group through `formatGroup` and join with
`" × "`. -/
def formatFactorization (gs : List GroupedFactor) : String :=
  joinSep " × " (gs.map formatGroup)

/-- C6: each group is rendered as the bare prime when its exponent is 1 and
as `prime^exponent` otherwise, and the rendered groups are joined with the
separator `" × "` in exactly the group-sequence order; concretely, `n = 12`
gives factors `[2, 2, 3]`, groups `[(2, 2), (3, 1)]` and the display string
`"2^2 × 3"`.  (Exponents of `groupFactors` output are always at least 1,
so the two rendering cases are exhaustive.) -/
theorem formatFactorization_spec :
    (∀ g : GroupedFactor, g.exponent = 1 → formatGroup g = toString g.prime) ∧
    (∀ g : GroupedFactor, 1 < g.exponent →
      formatGroup g = toString g.prime ++ "^" ++ toString g.exponent) ∧
    (∀ l : List Nat, ∀ g ∈ groupFactors l, 1 ≤ g.exponent) ∧
    (∀ g : GroupedFactor, formatFactorization [g] = formatGroup g) ∧
    (∀ (g : GroupedFactor) (gs : List GroupedFactor), gs ≠ [] →
      formatFactorization (g :: gs) = formatGroup g ++ " × " ++ formatFactorization gs) ∧
    primeFactorize 12 = [2, 2, 3] ∧
    groupFactors [2, 2, 3] = [⟨2, 2⟩, ⟨3, 1⟩] ∧
    formatFactorization [⟨2, 2⟩, ⟨3, 1⟩] = "2^2 × 3" := by
  refine ⟨?_, ?_, groupFactors_exponent_pos, ?_, ?_, primeFactorize_twelve, rfl, rfl⟩
  · intro g hg
    rw [formatGroup, if_neg (by omega)]
  · intro g hg
    rw [formatGroup, if_pos hg]
  · intro g
    rfl
  · intro g gs hgs
    cases gs with
    | nil => exact absurd rfl hgs
    | cons g2 t => rfl

theorem formatFactorization_spec_witness :
    1 < (GroupedFactor.mk 2 2).exponent ∧
    formatGroup ⟨2, 2⟩ =
      toString (GroupedFactor.mk 2 2).prime ++ "^" ++
        toString (GroupedFactor.mk 2 2).exponent :=
  ⟨by decide, formatFactorization_spec.2.1 ⟨2, 2⟩ (by decide)⟩

/-- One record of `calculationHistory` (source line 66):
`{ number, factorization }`. -/
structure HistoryRecord where
  number : Int
  factorization : String
deriving DecidableEq

/-- The history append of `handleFactorize` (source line 123):
`[...prev, { number, factorization }]`. -/
def appendHistory (history : List HistoryRecord) (num : Int) (s : String) :
    List HistoryRecord :=
  history ++ [⟨num, s⟩]

/-- `prev.filter((_, i) => i !== index)` (source line 128): keep the
entries whose position differs from `index`, counting positions from `i0`.
JavaScript array indices are exact integers, so the position counter is
compared with the (possibly negative) `index` in `Int`. -/
def filterIdxNe (index : Int) : Nat → List HistoryRecord → List HistoryRecord
  | _, [] => []
  | i, r :: rest =>
    if (i : Int) ≠ index then r :: filterIdxNe index (i + 1) rest
    else filterIdxNe index (i + 1) rest

/-- `removeFromHistory` (source lines 127-129). -/
def removeFromHistory (history : List HistoryRecord) (index : Int) :
    List HistoryRecord :=
  filterIdxNe index 0 history

theorem filterIdxNe_out (index : Int) (l : List HistoryRecord) : ∀ i0 : Nat,
    (index < (i0 : Int) ∨ ((i0 : Int) + l.length ≤ index)) →
    filterIdxNe index i0 l = l := by
  induction l with
  | nil =>
    intro i0 h
    rfl
  | cons r rest ih =>
    intro i0 h
    rw [filterIdxNe, if_pos (by simp at h ⊢; omega)]
    rw [ih (i0 + 1) (by simp at h ⊢; omega)]

theorem filterIdxNe_in (l : List HistoryRecord) : ∀ (i0 k : Nat),
    k < l.length →
    filterIdxNe ((i0 : Int) + (k : Int)) i0 l = l.take k ++ l.drop (k + 1) := by
  induction l with
  | nil =>
    intro i0 k hk
    simp at hk
  | cons r rest ih =>
    intro i0 k hk
    cases k with
    | zero =>
      rw [filterIdxNe, if_neg (by simp)]
      rw [filterIdxNe_out _ _ (i0 + 1) (by push_cast; omega)]
      simp
    | succ k' =>
      rw [filterIdxNe, if_pos (by push_cast; omega)]
      have := ih (i0 + 1) k' (by simpa using hk)
      rw [show ((i0 : Int) + ((k' : Nat) + 1 : Nat)) = (((i0 + 1 : Nat) : Int) + (k' : Int)) by push_cast; omega]
      rw [this]
      simp

/-- C7: removing at an in-range index deletes exactly the record at that
position, the records after it shifting down one position in order; an
out-of-range index (negative or at least the length) is a silent no-op. -/
theorem removeFromHistory_spec (h : List HistoryRecord) (i : Int) :
    (0 ≤ i → i < (h.length : Int) →
      removeFromHistory h i = h.take i.toNat ++ h.drop (i.toNat + 1)) ∧
    ((i < 0 ∨ (h.length : Int) ≤ i) → removeFromHistory h i = h) := by
  constructor
  · intro h0 hlen
    have hk : i.toNat < h.length := by omega
    have heq := filterIdxNe_in h 0 i.toNat hk
    rw [show ((0 : Nat) : Int) + (i.toNat : Int) = i by omega] at heq
    exact heq
  · intro hout
    exact filterIdxNe_out i h 0 (by push_cast; omega)

theorem removeFromHistory_spec_witness :
    (0 ≤ (0 : Int) ∧
      (0 : Int) < (([⟨12, "2^2 × 3"⟩, ⟨17, "17"⟩] : List HistoryRecord).length : Int)) ∧
    removeFromHistory [⟨12, "2^2 × 3"⟩, ⟨17, "17"⟩] 0 = [⟨17, "17"⟩] := by
  refine ⟨⟨le_refl 0, by norm_num⟩, ?_⟩
  have heq := (removeFromHistory_spec [⟨12, "2^2 × 3"⟩, ⟨17, "17"⟩] 0).1
    (le_refl 0) (by norm_num)
  simpa using heq

/-- C8: appending (12, "2^2 × 3") then (17, "17") to the empty history and
then removing index 0 leaves exactly one record, {17, "17"}, at
position 0. -/
theorem history_append_remove_scenario :
    removeFromHistory
      (appendHistory (appendHistory [] 12 "2^2 × 3") 17 "17") 0 = [⟨17, "17"⟩] := by
  rfl

/-- The reactive state of the `App` component that the core operations
touch (source lines 60-66): the input field, the current number (`none`
models `NaN`), the factor lists, the error message and the calculation
history. -/
structure AppState where
  inputValue : String
  currentNumber : Option Int
  factors : List Nat
  groupedFactors : List GroupedFactor
  error : Option String
  calculationHistory : List HistoryRecord

/-- `handleFactorize` (source lines 86-124).  `parsed` is the result of
`parseInt(inputValue(), 10)`, with `none` modelling `NaN`; the three error
branches set an error message and clear the factor lists, and the success
branch clears the error, stores the factorization and appends one history
record. -/
def handleFactorize (parsed : Option Int) (st : AppState) : AppState :=
  match parsed with
  | none =>
    { st with currentNumber := none,
              error := some "有効な数値を入力してください",
              factors := [], groupedFactors := [] }
  | some num =>
    if num < 2 then
      { st with currentNumber := some num,
                error := some "2以上の整数を入力してください",
                factors := [], groupedFactors := [] }
    else if num > MAX_SAFE_INTEGER then
      { st with currentNumber := some num,
                error := some "数値が大きすぎます",
                factors := [], groupedFactors := [] }
    else
      { st with currentNumber := some num,
                error := none,
                factors := primeFactorize num,
                groupedFactors := groupFactors (primeFactorize num),
                calculationHistory := appendHistory st.calculationHistory num
                  (formatFactorization (groupFactors (primeFactorize num))) }

/-- `recalculate` (source lines 132-139): refill the input field, recompute
the factorization of `num` and clear the error, touching nothing else. -/
def recalculate (num : Int) (st : AppState) : AppState :=
  { st with inputValue := toString num,
            currentNumber := some num,
            factors := primeFactorize num,
            groupedFactors := groupFactors (primeFactorize num),
            error := none }

/-- C9: `handleFactorize` appends a history record exactly when the
factorization succeeds: a non-numeric, below-2 or above-bound input sets an
error and leaves the history unchanged, a valid input clears the error and
appends exactly one record, and every pre-existing record is still intact
at its old position afterwards. -/
theorem handleFactorize_history_spec (parsed : Option Int) (st : AppState) :
    (parsed = none →
      (handleFactorize parsed st).calculationHistory = st.calculationHistory ∧
      (handleFactorize parsed st).error ≠ none) ∧
    (∀ n, parsed = some n → (n < 2 ∨ MAX_SAFE_INTEGER < n) →
      (handleFactorize parsed st).calculationHistory = st.calculationHistory ∧
      (handleFactorize parsed st).error ≠ none) ∧
    (∀ n, parsed = some n → 2 ≤ n → n ≤ MAX_SAFE_INTEGER →
      (handleFactorize parsed st).calculationHistory =
        st.calculationHistory ++
          [⟨n, formatFactorization (groupFactors (primeFactorize n))⟩] ∧
      (handleFactorize parsed st).error = none) ∧
    (∀ i : Nat, i < st.calculationHistory.length →
      (handleFactorize parsed st).calculationHistory[i]? =
        st.calculationHistory[i]?) := by
  have hmsi : (1 : Int) < MAX_SAFE_INTEGER := by norm_num [MAX_SAFE_INTEGER]
  refine ⟨?_, ?_, ?_, ?_⟩
  · rintro rfl
    exact ⟨rfl, by simp [handleFactorize]⟩
  · rintro n rfl hbad
    rcases hbad with hb | hb
    · rw [handleFactorize]
      rw [if_pos hb]
      exact ⟨rfl, by simp⟩
    · rw [handleFactorize]
      rw [if_neg (by omega), if_pos (by omega)]
      exact ⟨rfl, by simp⟩
  · rintro n rfl h2 hle
    rw [handleFactorize]
    rw [if_neg (by omega), if_neg (by omega)]
    exact ⟨rfl, rfl⟩
  · intro i hi
    match parsed with
    | none => rfl
    | some num =>
      rw [handleFactorize]
      by_cases hb1 : num < 2
      · rw [if_pos hb1]
      · rw [if_neg hb1]
        by_cases hb2 : num > MAX_SAFE_INTEGER
        · rw [if_pos hb2]
        · rw [if_neg hb2]
          exact List.getElem?_append_left hi

theorem handleFactorize_history_spec_witness :
    (2 ≤ (12 : Int) ∧ (12 : Int) ≤ MAX_SAFE_INTEGER) ∧
    ((handleFactorize (some 12) ⟨"12", none, [], [], none, []⟩).calculationHistory =
      (⟨"12", none, [], [], none, []⟩ : AppState).calculationHistory ++
        [⟨12, formatFactorization (groupFactors (primeFactorize 12))⟩] ∧
     (handleFactorize (some 12) ⟨"12", none, [], [], none, []⟩).error = none) :=
  ⟨⟨by norm_num, by norm_num [MAX_SAFE_INTEGER]⟩,
    (handleFactorize_history_spec (some 12) ⟨"12", none, [], [], none, []⟩).2.2.1 12 rfl
      (by norm_num) (by norm_num [MAX_SAFE_INTEGER])⟩

/-- C10: `recalculate` never touches the history: it overwrites the input
field, current number, factor lists and error, and leaves
`calculationHistory` completely unchanged. -/
theorem recalculate_frame (num : Int) (st : AppState) :
    (recalculate num st).calculationHistory = st.calculationHistory ∧
    (recalculate num st).inputValue = toString num ∧
    (recalculate num st).currentNumber = some num ∧
    (recalculate num st).factors = primeFactorize num ∧
    (recalculate num st).groupedFactors = groupFactors (primeFactorize num) ∧
    (recalculate num st).error = none :=
  ⟨rfl, rfl, rfl, rfl, rfl, rfl⟩
